import Mathlib

/-!
Verification of the pad-geometry and track-simulation core of catm-python-lib.

The definitions below are a shallow embedding of `src/catmlib/readoutpad/basepad.py`
and `src/catmlib/simulator/tracksimulation.py`.  Python floats are modelled as real
numbers; Python lists as Lean lists; functions that can raise an exception return
`Option` or `Except`; calls into numpy's random generator are modelled by passing an
explicit stream of standard draws (a function from a counter to the draw), so that
each call of the source consumes successive elements of the stream.
-/

namespace CatmSpec

/-- A 3-D point, modelling a Python list `[x, y, z]` of floats. -/
abbrev V3 := ℝ × ℝ × ℝ

/-- The degree-to-radian factor `0.0174533` that the source embeds as a literal
(`theta = 0.0174533 * degree` in `rotate_x`/`rotate_y`/`rotate_z` of basepad.py and
in `genarate_track` of tracksimulation.py). -/
def DEG : ℝ := 0.0174533

/-- `TReadoutPadArray.rotate_x` (basepad.py lines 136-147): rotation of a position
about the X axis by `degree` degrees. -/
noncomputable def rotate_x (position : V3) (degree : ℝ) : V3 :=
  let theta := DEG * degree
  (position.1,
   position.2.1 * Real.cos theta - position.2.2 * Real.sin theta,
   position.2.1 * Real.sin theta + position.2.2 * Real.cos theta)

/-- `TReadoutPadArray.rotate_y` (basepad.py lines 149-160). -/
noncomputable def rotate_y (position : V3) (degree : ℝ) : V3 :=
  let theta := DEG * degree
  (position.1 * Real.cos theta + position.2.2 * Real.sin theta,
   position.2.1,
   -position.1 * Real.sin theta + position.2.2 * Real.cos theta)

/-- `TReadoutPadArray.rotate_z` (basepad.py lines 162-173). -/
noncomputable def rotate_z (position : V3) (degree : ℝ) : V3 :=
  let theta := DEG * degree
  (position.1 * Real.cos theta - position.2.1 * Real.sin theta,
   position.1 * Real.sin theta + position.2.1 * Real.cos theta,
   position.2.2)

/-- `TBasePadShapeClass` (basepad.py): a canonical pad outline, with the fields the
simulation core reads (`center`, `polygon`). -/
structure TBasePadShapeClass where
  center : V3
  polygon : List V3

/-- `TReadoutPadArray` (basepad.py): the parallel lists holding the placed pads. -/
structure TReadoutPadArray where
  basepadlist : List TBasePadShapeClass
  pads : List (List V3)
  ids : List ℤ
  centers : List V3
  charges : List ℝ

/-- Componentwise sum of a list of 3-D points. -/
noncomputable def vsum (l : List V3) : V3 :=
  l.foldr (fun v acc => (v.1 + acc.1, v.2.1 + acc.2.1, v.2.2 + acc.2.2)) (0, 0, 0)

/-- `np.mean(polygon, axis=0)`: the componentwise arithmetic mean of a vertex list
(used by `add_pads`; only meaningful for a nonempty list, as in the source where an
empty list would produce NaN). -/
noncomputable def vmean (l : List V3) : V3 :=
  ((vsum l).1 / l.length, (vsum l).2.1 / l.length, (vsum l).2.2 / l.length)

/-- `TReadoutPadArray.add_pads` (basepad.py lines 183-213): fetch the template
`basepadlist[baseid]` (an out-of-range index raises, modelled by `none`), rotate
every template vertex about X, then Y, then Z, translate it by `center`, and append
the new polygon, id, centroid and a zero charge to the four parallel lists. -/
noncomputable def add_pads (arr : TReadoutPadArray) (center : V3) (baseid : ℕ)
    (degX degY degZ : ℝ) (id : ℤ) : Option TReadoutPadArray :=
  match arr.basepadlist.get? baseid with
  | none => none
  | some padshape =>
    let polygon_new := padshape.polygon.map (fun p =>
      let r := rotate_z (rotate_y (rotate_x p degX) degY) degZ
      (r.1 + center.1, r.2.1 + center.2.1, r.2.2 + center.2.2))
    some { basepadlist := arr.basepadlist
           pads := arr.pads ++ [polygon_new]
           ids := arr.ids ++ [id]
           centers := arr.centers ++ [vmean polygon_new]
           charges := arr.charges ++ [0] }

/-- One vertex of `generate_regular_n_polygon`: the in-plane point
`(radius cos a, radius sin a)` at the angle `a = 2 pi k / n` (entry `k` of numpy
`linspace(0, 2 pi, n, endpoint=False)`), rotated by the source's 2x2 rotation
matrix `[[cos, -sin], [sin, cos]]` and embedded into 3-D as `[x, 0, z]`. -/
noncomputable def regularVertex (n : ℕ) (radius thetar : ℝ) (k : ℕ) : V3 :=
  let a := 2 * Real.pi * k / n
  let vx := radius * Real.cos a
  let vz := radius * Real.sin a
  (Real.cos thetar * vx - Real.sin thetar * vz, 0,
   Real.sin thetar * vx + Real.cos thetar * vz)

/-- `generate_regular_n_polygon` (basepad.py lines 292-319).  For `n < 3` the source
prints a warning and falls off the end of the function, returning Python `None`
(modelled by `none`).  Otherwise the vertices sit on a circle of radius
`length / (2 sin(pi/n))` at the `n` angles `2 pi k / n`, are rotated in-plane by
`theta` degrees (`np.radians` is the exact `pi/180` conversion), and are embedded
into 3-D as `[x, 0, z]`; see `regularVertex` for the per-vertex construction. -/
noncomputable def generate_regular_n_polygon (n : ℕ) (length theta : ℝ) : Option TBasePadShapeClass :=
  if n < 3 then none
  else
    let radius := length / (2 * Real.sin (Real.pi / n))
    let thetar := Real.pi / 180 * theta
    some { center := (0, 0, 0)
           polygon := (List.range n).map (regularVertex n radius thetar) }

/-- `generate_oblong_4_polygon` (basepad.py lines 321-352), including the source's
duplicated conditions `plane=='xy' or plane=='xy'` and `plane=='xz' or plane=='xz'`
(the reversed spellings `yx` and `zx` are therefore never matched); a plane string
matching no branch leaves the polygon list empty and the object is returned as-is. -/
noncomputable def generate_oblong_4_polygon (longlength shortlength : ℝ) (plane : String) :
    TBasePadShapeClass :=
  if plane = "yz" ∨ plane = "zy" then
    { center := (0, 0, 0)
      polygon := [(0, shortlength / 2, longlength / 2),
                  (0, shortlength / 2, -(longlength / 2)),
                  (0, -(shortlength / 2), -(longlength / 2)),
                  (0, -(shortlength / 2), longlength / 2)] }
  else if plane = "xy" ∨ plane = "xy" then
    { center := (0, 0, 0)
      polygon := [(longlength / 2, shortlength / 2, 0),
                  (longlength / 2, -(shortlength / 2), 0),
                  (-(longlength / 2), -(shortlength / 2), 0),
                  (-(longlength / 2), shortlength / 2, 0)] }
  else if plane = "xz" ∨ plane = "xz" then
    { center := (0, 0, 0)
      polygon := [(longlength / 2, 0, shortlength / 2),
                  (longlength / 2, 0, -(shortlength / 2)),
                  (-(longlength / 2), 0, -(shortlength / 2)),
                  (-(longlength / 2), 0, shortlength / 2)] }
  else
    { center := (0, 0, 0), polygon := [] }

/-- Euclidean distance between two 3-D points. -/
noncomputable def dist3 (a b : V3) : ℝ :=
  Real.sqrt ((a.1 - b.1) ^ 2 + (a.2.1 - b.2.1) ^ 2 + (a.2.2 - b.2.2) ^ 2)

/-- The axis lookup `self.mapping.get(plane[k], 0)` of tracksimulation.py:
`x`, `y`, `z` map to 0, 1, 2 and anything else defaults to 0. -/
def charIndex (c : Char) : ℕ :=
  if c = 'x' then 0 else if c = 'y' then 1 else if c = 'z' then 2 else 0

/-- Component access `point[i]` for a 3-D numpy row (only indices 0, 1, 2 occur). -/
noncomputable def coord (v : V3) (i : ℕ) : ℝ :=
  if i = 0 then v.1 else if i = 1 then v.2.1 else v.2.2

/-- `np.linspace(a, b, n)`: `n` evenly spaced samples from `a` to `b`, endpoints
included (`[]` for `n = 0`, `[a]` for `n = 1`). -/
noncomputable def linspace (a b : ℝ) (n : ℕ) : List ℝ :=
  if n = 0 then []
  else if n = 1 then [a]
  else (List.range n).map (fun k => a + (b - a) * k / (n - 1))

/-- `TrackSimulator.genarate_track` (tracksimulation.py lines 77-98): build the unit
direction from the two angles, set `t_max = z_range / vector[2]`, and sample the line
at `points` values of `linspace(0, t_max, points)`.  The source contains no raise
statement and no guard: the division is a numpy float division (division by zero
would yield `inf` with only a runtime warning); here it is the total real division. -/
noncomputable def genarate_track (start_point : V3) (e_angle a_angle z_range : ℝ) (points : ℕ) :
    List V3 :=
  let theta := DEG * e_angle
  let phi := DEG * a_angle
  let v : V3 := (Real.sin theta * Real.cos phi,
                 Real.sin theta * Real.sin phi,
                 Real.cos theta)
  let t_max := z_range / v.2.2
  (linspace 0 t_max points).map (fun t =>
    (start_point.1 + t * v.1, start_point.2.1 + t * v.2.1, start_point.2.2 + t * v.2.2))

/-- Model of `np.random.multivariate_normal(center, [[c, 0], [0, c]])`: a draw from
the 2-D Gaussian with mean `center` and covariance matrix `c * I`, expressed as
`center + sqrt c * z` where `z` is the generator's standard 2-D normal draw (numpy
factorises the covariance matrix; for `c * I` the factor is `sqrt c * I`). -/
noncomputable def mvnDiag (center : ℝ × ℝ) (c : ℝ) (z : ℝ × ℝ) : ℝ × ℝ :=
  (center.1 + Real.sqrt c * z.1, center.2 + Real.sqrt c * z.2)

/-- The inner `for j in range(num_points)` loop of `calclate_difused_point`: `gain`
draws around one ionization point `pt`, consuming stream entries `base`, `base+1`,
....  Note the source assembles every diffused point as
`[difused[0], pt[1], difused[1]]` independently of the chosen plane. -/
noncomputable def diffuseBlock (i1 i2 : ℕ) (sigma : ℝ) (gain : ℕ) (rng : ℕ → ℝ × ℝ)
    (pt : V3) (base : ℕ) : List V3 :=
  (List.range gain).map (fun j =>
    let s := mvnDiag (coord pt i1, coord pt i2) sigma (rng (base + j))
    (s.1, pt.2.1, s.2))

/-- The outer loop of `calclate_difused_point` over the ionization points, appending
every block to one flat list; the `i`-th point's draws use stream entries
`i * gain + j`. -/
noncomputable def diffuseAux (i1 i2 : ℕ) (sigma : ℝ) (gain : ℕ) (rng : ℕ → ℝ × ℝ) :
    List V3 → ℕ → List V3
  | [], _ => []
  | pt :: rest, i =>
      diffuseBlock i1 i2 sigma gain rng pt (i * gain) ++
        diffuseAux i1 i2 sigma gain rng rest (i + 1)

/-- `TrackSimulator.calclate_difused_point` (tracksimulation.py lines 258-287):
for each ionization point draw `gain` samples from
`np.random.multivariate_normal([pt[index1], pt[index2]], [[sigma, 0], [0, sigma]])`
and append `[sample[0], pt[1], sample[1]]` to one flat list.  A plane string with
fewer than two characters would raise an IndexError (`none`). -/
noncomputable def calclate_difused_point (plane : List Char) (gain : ℕ) (sigma : ℝ)
    (pts : List V3) (rng : ℕ → ℝ × ℝ) : Option (List V3) :=
  match plane with
  | c1 :: c2 :: _ => some (diffuseAux (charIndex c1) (charIndex c2) sigma gain rng pts 0)
  | _ => none

/-- Projection of a 3-D point onto the XZ plane, `[vertex[0], vertex[2]]`. -/
def projXZ {α : Type} (v : α × α × α) : α × α := (v.1, v.2.2)

/-- The inner `for j in range(len(xzpads))` loop of `calclate_pad_electrons`: given
one projected point, increment the charge of every pad whose projected polygon
contains it (the PadArray invariant `len(charges) = len(pads)` makes the positional
zip faithful to the source's indexed writes). -/
def padHitStep {α : Type} (inside : List (α × α) → α × α → Bool)
    (xzpads : List (List (α × α))) (p : α × α) (charges : List ℕ) : List ℕ :=
  List.zipWith (fun c poly => if inside poly p then c + 1 else c) charges xzpads

/-- `TrackSimulator.calclate_pad_electrons` (tracksimulation.py lines 289-311):
reset every pad charge to 0, project every pad polygon to the XZ plane, then for
every diffused point and every pad test containment and increment the matching
charges.  The containment test `Path(...).contains_point(...)` is matplotlib code,
external to the repository, so it is a parameter `inside` here. -/
def calclate_pad_electrons {α β : Type} (inside : List (α × α) → α × α → Bool)
    (pads : List (List (α × α × α))) (charges0 : List β)
    (pts : List (α × α × α)) : List ℕ :=
  let reset : List ℕ := List.replicate charges0.length 0
  let xzpads := pads.map (fun poly => poly.map projXZ)
  pts.foldl (fun ch p => padHitStep inside xzpads (projXZ p) ch) reset

/-- Modelled from the spec: the "standard point-in-polygon (ray-casting ...) rule"
of spec section 4.2, standing in for `matplotlib.path.Path.contains_point`, which is
external to the repository.  Even-odd rule over rational coordinates: cast a ray in
the +x direction and toggle on every crossed edge. -/
def crossingContains (poly : List (ℚ × ℚ)) (p : ℚ × ℚ) : Bool :=
  let edges := poly.zip (poly.drop 1 ++ poly.take 1)
  edges.foldl (fun b e =>
    let a := e.1
    let c := e.2
    if ((a.2 ≤ p.2 ∧ p.2 < c.2) ∨ (c.2 ≤ p.2 ∧ p.2 < a.2)) ∧
        p.1 < a.1 + (p.2 - a.2) * (c.1 - a.1) / (c.2 - a.2) then !b else b) false

/-- `TrackSimulator.get_value_null_distribution` (tracksimulation.py lines 168-176). -/
noncomputable def get_value_null_distribution (value : ℝ) : ℝ := value

/-- `TrackSimulator.get_value_gaus_distribution` (tracksimulation.py lines 178-187):
`np.random.normal(value, sigma)`, modelled as `value + sigma * z` for the stream's
standard normal draw `z`. -/
noncomputable def get_value_gaus_distribution (value sigma z : ℝ) : ℝ := value + sigma * z

/-- `TrackSimulator.get_value_uniform_distribution` (tracksimulation.py lines
189-198): `np.random.uniform(value - width, value + width)`, modelled as
`(value - width) + 2 * width * u` for the stream's standard uniform draw `u`. -/
noncomputable def get_value_uniform_distribution (value width u : ℝ) : ℝ :=
  (value - width) + 2 * width * u

/-- One iteration of `monte_carlo_track`'s inner `for i in range(len(track_parameters))`
loop: look up `xyzea_ditribution_list[i]` (out of range raises IndexError), dispatch
on the label, look up `xyzea_parameter_list[i]` where the branch needs it, and return
the values appended to the tuple (`[]` for an unrecognized label, which matches no
branch and appends nothing) together with the advanced stream counter. -/
noncomputable def mcComponent (labels : List String) (params : List ℝ) (rng : ℕ → ℝ)
    (base : ℝ) (i k : ℕ) : Except String (List ℝ × ℕ) :=
  match labels.get? i with
  | none => Except.error "IndexError"
  | some l =>
    if l = "null" then Except.ok ([get_value_null_distribution base], k)
    else if l = "gaus" then
      match params.get? i with
      | none => Except.error "IndexError"
      | some p => Except.ok ([get_value_gaus_distribution base p (rng k)], k + 1)
    else if l = "uniform" then
      match params.get? i with
      | none => Except.error "IndexError"
      | some p => Except.ok ([get_value_uniform_distribution base p (rng k)], k + 1)
    else Except.ok ([], k)

/-- The inner loop of `monte_carlo_track` building one `track_parameters_new` tuple,
walking the base parameters with their index `i` and threading the stream counter. -/
noncomputable def mcTupleAux (labels : List String) (params : List ℝ) (rng : ℕ → ℝ) :
    List ℝ → ℕ → ℕ → Except String (List ℝ × ℕ)
  | [], _, k => Except.ok ([], k)
  | base :: rest, i, k =>
    match mcComponent labels params rng base i k with
    | Except.error e => Except.error e
    | Except.ok (vs, k1) =>
      match mcTupleAux labels params rng rest (i + 1) k1 with
      | Except.error e => Except.error e
      | Except.ok (tl, k2) => Except.ok (vs ++ tl, k2)

/-- The outer `for j in range(nmax)` loop of `monte_carlo_track`, collecting the
generated tuples in order. -/
noncomputable def mcLoop (labels : List String) (params : List ℝ) (rng : ℕ → ℝ) (tp : List ℝ) :
    ℕ → ℕ → Except String (List (List ℝ) × ℕ)
  | 0, k => Except.ok ([], k)
  | Nat.succ m, k =>
    match mcTupleAux labels params rng tp 0 k with
    | Except.error e => Except.error e
    | Except.ok (t, k1) =>
      match mcLoop labels params rng tp m k1 with
      | Except.error e => Except.error e
      | Except.ok (ts, k2) => Except.ok (t :: ts, k2)

/-- `TrackSimulator.monte_carlo_track` (tracksimulation.py lines 200-229): reset
`mc_track_pram` and fill it with `nmax` tuples; the label and parameter vectors are
the already-split `xyzea_ditribution_list` and `xyzea_parameter_list`.  The source
performs no length validation of any kind; a raised IndexError surfaces as
`Except.error`. -/
noncomputable def monte_carlo_track (nmax : ℕ) (track_parameters : List ℝ)
    (labels : List String) (params : List ℝ) (rng : ℕ → ℝ) :
    Except String (List (List ℝ)) :=
  match mcLoop labels params rng track_parameters nmax 0 with
  | Except.error e => Except.error e
  | Except.ok (ts, _) => Except.ok ts

/-- Whether index `m` of the label vector holds one of the three strings that match
a branch of `monte_carlo_track`'s dispatch (used to state which components append a
value to the generated tuple). -/
def recognizedAt (labels : List String) (m : ℕ) : Bool :=
  match labels.get? m with
  | some s => s = "null" || s = "gaus" || s = "uniform"
  | none => false

/-- IEEE-style float division as the source's numpy division: a zero divisor does
not raise but produces a non-real result (`nan` for the charge centroids, whose
numerator is then also zero); modelled as `none`. -/
noncomputable def fdiv (a b : ℝ) : Option ℝ := if b = 0 then none else some (a / b)

/-- `sum(np.array(x_values) * np.array(icharge))`: sum of the elementwise product. -/
noncomputable def dotSum (xs qs : List ℝ) : ℝ := (List.zipWith (fun a b => a * b) xs qs).sum

/-- The per-event recording step of `simulate_pad_charge` (tracksimulation.py lines
449-450): `xpos.append(sum(np.array(x_values)*np.array(icharge))/sum(np.array(icharge)))`
with `x_values = [point[0] for point in centers]`. -/
noncomputable def record_event_xpos (centers : List V3) (icharge : List ℝ) : Option ℝ :=
  let x_values := centers.map (fun point => point.1)
  fdiv (dotSum x_values icharge) icharge.sum

/-- `calculate_pad_charge_threshold` (tracksimulation.py lines 456-482): per event,
zero out every charge not exceeding `threshold`, then recompute the charge-weighted
x position of the thresholded vector with the same division as
`simulate_pad_charge`; returns `(xpos_thre, charge_thre)`. -/
noncomputable def calculate_pad_charge_threshold (centers : List V3) (charge : List (List ℝ))
    (threshold : ℝ) : List (Option ℝ) × List (List ℝ) :=
  (charge.map (fun ev =>
     record_event_xpos centers (ev.map (fun c => if c > threshold then c else 0))),
   charge.map (fun ev => ev.map (fun c => if c > threshold then c else 0)))

/-- C7: for every `n < 3`, `generate_regular_n_polygon` fails at construction — in
the source it prints a warning and returns Python `None` (here `none`), never a
usable polygon. -/
theorem C7_invalid_n (n : ℕ) (length theta : ℝ) (h : n < 3) :
    generate_regular_n_polygon n length theta = none := by
  simp [generate_regular_n_polygon, h]

/-- Witness for C7 at the concrete input `n = 2`. -/
theorem C7_witness : 2 < 3 ∧ generate_regular_n_polygon 2 5 0 = none :=
  ⟨by decide, C7_invalid_n 2 5 0 (by decide)⟩

/-- C10: `generate_oblong_4_polygon` called with a plane string other than `yz`,
`zy`, `xy`, `xz` (the reversed spellings `yx` and `zx` included, since the source's
duplicated conditions never test them) raises no error and returns a shape object
whose polygon vertex list is empty. -/
theorem C10_unknown_plane (longlength shortlength : ℝ) (plane : String)
    (h1 : plane ≠ "yz") (h2 : plane ≠ "zy") (h3 : plane ≠ "xy") (h4 : plane ≠ "xz") :
    (generate_oblong_4_polygon longlength shortlength plane).polygon = [] := by
  simp [generate_oblong_4_polygon, h1, h2, h3, h4]

/-- Witness for C10 at the reversed spelling `plane = "yx"`. -/
theorem C10_witness :
    ("yx" : String) ≠ "yz" ∧ (generate_oblong_4_polygon 4 2 "yx").polygon = [] :=
  ⟨by decide,
   C10_unknown_plane 4 2 "yx" (by decide) (by decide) (by decide) (by decide)⟩

/-- C2: contract of `add_pads`: each template vertex is rotated about X, then Y,
then Z in that order and translated by `center`; exactly one element is appended to
each of `pads`, `ids`, `centers`, `charges` (so their lengths all grow by one and
stay aligned), the appended charge is `0`, and the appended center is the arithmetic
mean of the newly placed pad's vertices. -/
theorem C2_add_pads_contract (arr : TReadoutPadArray) (center : V3) (baseid : ℕ)
    (degX degY degZ : ℝ) (id : ℤ) (shape : TBasePadShapeClass)
    (hget : arr.basepadlist.get? baseid = some shape) (hne : shape.polygon ≠ []) :
    ∃ arr2, add_pads arr center baseid degX degY degZ id = some arr2 ∧
      arr2.pads = arr.pads ++ [shape.polygon.map (fun p =>
        let r := rotate_z (rotate_y (rotate_x p degX) degY) degZ
        (r.1 + center.1, r.2.1 + center.2.1, r.2.2 + center.2.2))] ∧
      arr2.ids = arr.ids ++ [id] ∧
      arr2.charges = arr.charges ++ [(0 : ℝ)] ∧
      arr2.pads.length = arr.pads.length + 1 ∧
      arr2.ids.length = arr.ids.length + 1 ∧
      arr2.centers.length = arr.centers.length + 1 ∧
      arr2.charges.length = arr.charges.length + 1 ∧
      arr2.centers.getLast? = (arr2.pads.getLast?).map vmean := by
  simp only [add_pads, hget]
  exact ⟨_, rfl, rfl, rfl, rfl, by simp, by simp, by simp, by simp,
    by simp [List.getLast?_concat]⟩

/-- Witness for C2 on a one-template, initially empty pad array. -/
theorem C2_witness :
    ∃ arr2, add_pads ⟨[⟨(0, 0, 0), [((1 : ℝ), 0, 0)]⟩], [], [], [], []⟩
        (2, 3, 4) 0 10 20 30 7 = some arr2 ∧
      arr2.charges = [(0 : ℝ)] ∧
      arr2.centers.getLast? = (arr2.pads.getLast?).map vmean := by
  obtain ⟨arr2, h1, _, _, h4, _, _, _, _, h9⟩ :=
    C2_add_pads_contract ⟨[⟨(0, 0, 0), [((1 : ℝ), 0, 0)]⟩], [], [], [], []⟩
      (2, 3, 4) 0 10 20 30 7 ⟨(0, 0, 0), [((1 : ℝ), 0, 0)]⟩ rfl (by simp)
  exact ⟨arr2, h1, by simpa using h4, h9⟩

/-- C5: the recorded event x position of `simulate_pad_charge` is the
charge-weighted centroid `sum(center_x * charge) / sum(charge)`, and when the total
charge is `0` the result is the explicit undefined marker (numpy's NaN, `none`
here), never a crash and never a silent `0`; `calculate_pad_charge_threshold`
recomputes the position of the thresholded vector by the same recording step. -/
theorem C5_centroid_policy (centers : List V3) (icharge : List ℝ)
    (charge : List (List ℝ)) (threshold : ℝ) :
    (icharge.sum ≠ 0 → record_event_xpos centers icharge =
        some (dotSum (centers.map (fun point => point.1)) icharge / icharge.sum)) ∧
    (icharge.sum = 0 → record_event_xpos centers icharge = none) ∧
    ((calculate_pad_charge_threshold centers charge threshold).1 =
       charge.map (fun ev =>
         record_event_xpos centers (ev.map (fun c => if c > threshold then c else 0)))) := by
  refine ⟨fun h => ?_, fun h => ?_, rfl⟩
  · simp [record_event_xpos, fdiv, h]
  · simp [record_event_xpos, fdiv, h]

/-- Witness for C5: two pads at x = 1 and x = 3 with equal charges give a defined
centroid. -/
theorem C5_witness :
    ([(2 : ℝ), 2].sum ≠ 0) ∧
    record_event_xpos [((1 : ℝ), 0, 0), (3, 0, 0)] [2, 2] =
      some (dotSum [1, 3] [2, 2] / [(2 : ℝ), 2].sum) := by
  have h : ([(2 : ℝ), 2]).sum ≠ 0 := by norm_num
  refine ⟨h, ?_⟩
  have h2 := (C5_centroid_policy [((1 : ℝ), 0, 0), (3, 0, 0)] [2, 2] [] 0).1 h
  simpa using h2

/-- C4: `genarate_track` has no error path at all: at the claimed failing input
(elevation 90 degrees, nonzero `z_range = 20`) it returns a full list of `points`
track samples instead of raising a domain error.  Moreover, because the source
converts degrees with the literal `0.0174533` rather than `pi/180`, the direction's
z component `cos(0.0174533 * 90)` is not even zero in exact arithmetic, so the
division is by a tiny nonzero number (with an exactly-zero float divisor, numpy
division would still not raise, producing `inf` with only a warning). -/
theorem C4_no_domain_error :
    (genarate_track (0, 0, 0) 90 0 20 5).length = 5 ∧ Real.cos (DEG * 90) ≠ 0 := by
  constructor
  · rfl
  · intro h
    rw [Real.cos_eq_zero_iff] at h
    obtain ⟨k, hk⟩ := h
    have hd : DEG * 90 = 1.570797 := by norm_num [DEG]
    rw [hd] at hk
    have hpi1 : (3.141592 : ℝ) < Real.pi := Real.pi_gt_d6
    have hpi2 : Real.pi < 3.141593 := Real.pi_lt_d6
    have hpos : (0 : ℝ) < Real.pi := by linarith
    rcases lt_trichotomy k 0 with hk0 | hk0 | hk0
    · have hk1 : k ≤ -1 := by omega
      have hkr : (k : ℝ) ≤ -1 := by exact_mod_cast hk1
      have h3 : (2 * (k : ℝ) + 1) ≤ -1 := by linarith
      have hmul : Real.pi * (2 * (k : ℝ) + 1) ≤ Real.pi * (-1) :=
        mul_le_mul_of_nonneg_left h3 (le_of_lt hpos)
      nlinarith [hmul, hk]
    · subst hk0
      norm_num at hk
      linarith
    · have hk1 : 1 ≤ k := by omega
      have hkr : (1 : ℝ) ≤ (k : ℝ) := by exact_mod_cast hk1
      have h3 : (3 : ℝ) ≤ 2 * (k : ℝ) + 1 := by linarith
      have hmul : Real.pi * 3 ≤ Real.pi * (2 * (k : ℝ) + 1) :=
        mul_le_mul_of_nonneg_left h3 (le_of_lt hpos)
      nlinarith [hmul, hk]

/-- One point's pass over the pads adds to the total charge exactly the number of
pads containing the point. -/
theorem padHitStep_sum {α : Type} (inside : List (α × α) → α × α → Bool)
    (q : α × α) :
    ∀ (ch : List ℕ) (xz : List (List (α × α))), ch.length = xz.length →
      (padHitStep inside xz q ch).sum = ch.sum + xz.countP (fun poly => inside poly q)
  | [], [], _ => by simp [padHitStep]
  | [], _ :: _, h => by simp at h
  | _ :: _, [], h => by simp at h
  | c :: ch, poly :: xz, h => by
    have ih := padHitStep_sum inside q ch xz (by simpa using h)
    unfold padHitStep at ih ⊢
    simp only [List.zipWith_cons_cons, List.sum_cons, List.countP_cons]
    rw [ih]
    by_cases hin : inside poly q <;> simp [hin] <;> omega

/-- One point's pass over the pads keeps the charge list's length. -/
theorem padHitStep_length {α : Type} (inside : List (α × α) → α × α → Bool)
    (q : α × α) (ch : List ℕ) (xz : List (List (α × α))) (h : ch.length = xz.length) :
    (padHitStep inside xz q ch).length = ch.length := by
  simp [padHitStep, h]

/-- The accumulation fold: the final total charge is the initial total plus, for
every point, the number of pads containing it. -/
theorem pad_fold_sum {α : Type} (inside : List (α × α) → α × α → Bool)
    (xz : List (List (α × α))) :
    ∀ (pts : List (α × α × α)) (ch : List ℕ), ch.length = xz.length →
      (pts.foldl (fun ch p => padHitStep inside xz (projXZ p) ch) ch).sum =
        ch.sum + (pts.map (fun p => xz.countP (fun poly => inside poly (projXZ p)))).sum
  | [], ch, _ => by simp
  | p :: pts, ch, h => by
    have hlen := padHitStep_length inside (projXZ p) ch xz h
    have ih := pad_fold_sum inside xz pts (padHitStep inside xz (projXZ p) ch)
      (hlen.trans h)
    have hstep := padHitStep_sum inside (projXZ p) ch xz h
    simp only [List.foldl_cons, List.map_cons, List.sum_cons]
    omega

/-- Summing a 0/1-valued map is counting. -/
theorem sum_map_indicator {γ : Type} :
    ∀ (pts : List γ) (f : γ → ℕ) (g : γ → Bool),
      (∀ p ∈ pts, f p = if g p then 1 else 0) →
      (pts.map f).sum = pts.countP g
  | [], _, _, _ => by simp
  | p :: pts, f, g, h => by
    have ih := sum_map_indicator pts f g (fun q hq => h q (List.mem_cons_of_mem p hq))
    have hp := h p (List.mem_cons_self p pts)
    simp only [List.map_cons, List.sum_cons, List.countP_cons, ih, hp]
    by_cases hg : g p = true <;> simp [hg] <;> omega

/-- C1 (amended): `calclate_pad_electrons` first resets every pad's charge to 0 (the
result does not depend on the incoming charge values, only on how many pads there
are, and with no diffused points it is all zeros); the sum of the raw hit counts
equals the sum over diffused points of the NUMBER of pads whose XZ-projected polygon
contains the point's XZ projection — a point inside several overlapping pads
increments each of them.  When no point lies inside more than one pad this equals
the number of points inside at least one pad, and if in addition every point lies
inside some pad it equals the total number of diffused points. -/
theorem C1_charge_conservation {α β : Type} (inside : List (α × α) → α × α → Bool)
    (pads : List (List (α × α × α))) (charges0 : List β) (pts : List (α × α × α))
    (hlen : charges0.length = pads.length) :
    (calclate_pad_electrons inside pads charges0 pts).sum =
      (pts.map (fun p => pads.countP
        (fun poly => inside (List.map projXZ poly) (projXZ p)))).sum ∧
    calclate_pad_electrons inside pads charges0 ([] : List (α × α × α)) =
      List.replicate pads.length 0 ∧
    ((∀ p ∈ pts,
        pads.countP (fun poly => inside (List.map projXZ poly) (projXZ p)) ≤ 1) →
      (calclate_pad_electrons inside pads charges0 pts).sum =
        pts.countP (fun p =>
          pads.any (fun poly => inside (List.map projXZ poly) (projXZ p)))) ∧
    ((∀ p ∈ pts,
        pads.countP (fun poly => inside (List.map projXZ poly) (projXZ p)) ≤ 1) →
      (∀ p ∈ pts,
        pads.any (fun poly => inside (List.map projXZ poly) (projXZ p)) = true) →
      (calclate_pad_electrons inside pads charges0 pts).sum = pts.length) := by
  have hxz : ∀ p : α × α × α,
      (pads.map (fun poly => poly.map projXZ)).countP
          (fun poly => inside poly (projXZ p)) =
        pads.countP (fun poly => inside (List.map projXZ poly) (projXZ p)) := by
    intro p
    rw [List.countP_map]
    rfl
  have hbase : (List.replicate charges0.length (0 : ℕ)).length =
      (pads.map (fun poly => poly.map projXZ)).length := by
    simp [hlen]
  have hsum : (calclate_pad_electrons inside pads charges0 pts).sum =
      (pts.map (fun p => pads.countP
        (fun poly => inside (List.map projXZ poly) (projXZ p)))).sum := by
    unfold calclate_pad_electrons
    rw [pad_fold_sum inside _ pts _ hbase]
    simp only [hxz, List.sum_replicate, smul_eq_mul, Nat.mul_zero, Nat.zero_add]
  have hind : ∀ p ∈ pts,
      (∀ q ∈ pts,
        pads.countP (fun poly => inside (List.map projXZ poly) (projXZ q)) ≤ 1) →
      pads.countP (fun poly => inside (List.map projXZ poly) (projXZ p)) =
        if pads.any (fun poly => inside (List.map projXZ poly) (projXZ p)) then 1
        else 0 := by
    intro p hp hone
    by_cases hany : pads.any (fun poly => inside (List.map projXZ poly) (projXZ p)) = true
    · rw [if_pos hany]
      have hpos : 0 < pads.countP (fun poly => inside (List.map projXZ poly) (projXZ p)) :=
        List.countP_pos_iff.mpr (List.any_eq_true.mp hany)
      have hle := hone p hp
      omega
    · rw [if_neg hany]
      refine List.countP_eq_zero.mpr ?_
      intro poly hpoly hcon
      exact hany (List.any_eq_true.mpr ⟨poly, hpoly, hcon⟩)
  refine ⟨hsum, ?_, ?_, ?_⟩
  · unfold calclate_pad_electrons
    simp [hlen]
  · intro hone
    rw [hsum]
    exact sum_map_indicator pts _ _ (fun p hp => hind p hp hone)
  · intro hone hall
    rw [hsum, sum_map_indicator pts _ _ (fun p hp => hind p hp hone)]
    exact List.countP_eq_length.mpr (fun p hp => hall p hp)

/-- Counterexample to C1 as stated: two identical overlapping unit-square pads and a
single diffused point inside both.  The sum of the raw hit counts is 2, while the
number of diffused points lying inside at least one pad polygon is 1 — the point is
double-counted because the source increments every containing pad. -/
theorem C1_counterexample :
    (calclate_pad_electrons crossingContains
        [[((0 : ℚ), 0, 0), (1, 0, 0), (1, 0, 1), (0, 0, 1)],
         [((0 : ℚ), 0, 0), (1, 0, 0), (1, 0, 1), (0, 0, 1)]]
        ([0, 0] : List ℚ) [((1 : ℚ) / 2, 5, 1 / 2)]).sum = 2 ∧
    ([((1 : ℚ) / 2, 5, 1 / 2)] : List (ℚ × ℚ × ℚ)).countP
      (fun p =>
        [[((0 : ℚ), 0, 0), (1, 0, 0), (1, 0, 1), (0, 0, 1)],
         [((0 : ℚ), 0, 0), (1, 0, 0), (1, 0, 1), (0, 0, 1)]].any
          (fun poly => crossingContains (List.map projXZ poly) (projXZ p))) = 1 := by
  constructor
  · norm_num [calclate_pad_electrons, padHitStep, crossingContains, projXZ,
      List.replicate_succ, List.zipWith_cons_cons]
  · norm_num [crossingContains, projXZ, List.countP, List.countP.go]

/-- Witness for C1 on a single unit-square pad containing the single point. -/
theorem C1_witness :
    (calclate_pad_electrons crossingContains
        [[((0 : ℚ), 0, 0), (1, 0, 0), (1, 0, 1), (0, 0, 1)]]
        ([0] : List ℚ) [((1 : ℚ) / 2, 5, 1 / 2)]).sum =
      (([((1 : ℚ) / 2, 5, 1 / 2)] : List (ℚ × ℚ × ℚ)).map
        (fun p => [[((0 : ℚ), 0, 0), (1, 0, 0), (1, 0, 1), (0, 0, 1)]].countP
          (fun poly => crossingContains (List.map projXZ poly) (projXZ p)))).sum :=
  (C1_charge_conservation crossingContains
    [[((0 : ℚ), 0, 0), (1, 0, 0), (1, 0, 1), (0, 0, 1)]]
    ([0] : List ℚ) [((1 : ℚ) / 2, 5, 1 / 2)] (by simp)).1

/-- With an all-`null` label vector that covers every base parameter, one tuple
build returns the base parameters unchanged and consumes no random draws,
whatever the parameter vector is. -/
theorem mcTupleAux_allnull (labels : List String) (params : List ℝ) (rng : ℕ → ℝ)
    (hall : ∀ l ∈ labels, l = "null") :
    ∀ (tp : List ℝ) (i k : ℕ), i + tp.length ≤ labels.length →
      mcTupleAux labels params rng tp i k = Except.ok (tp, k)
  | [], _, _, _ => rfl
  | base :: rest, i, k, h => by
    have hi : i < labels.length := by simp at h; omega
    have hl : labels[i]? = some labels[i] := List.getElem?_eq_getElem hi
    have hnull : labels[i] = "null" := hall _ (List.getElem_mem hi)
    have ih := mcTupleAux_allnull labels params rng hall rest (i + 1) k
      (by simp at h ⊢; omega)
    simp [mcTupleAux, mcComponent, hl, hnull, ih, get_value_null_distribution]

/-- Iterating a tuple build that always succeeds with the base parameters yields
`nmax` copies of them. -/
theorem mcLoop_allnull (labels : List String) (params : List ℝ) (rng : ℕ → ℝ)
    (tp : List ℝ)
    (h : ∀ k, mcTupleAux labels params rng tp 0 k = Except.ok (tp, k)) :
    ∀ (n k : ℕ), mcLoop labels params rng tp n k =
      Except.ok (List.replicate n tp, k)
  | 0, _ => rfl
  | Nat.succ m, k => by
    have ih := mcLoop_allnull labels params rng tp h m k
    simp [mcLoop, h k, ih, List.replicate_succ]

/-- A label vector shorter than the base parameter list makes the tuple build fail
with an error raised in the middle of the loop (an IndexError in the source). -/
theorem mcTupleAux_error (labels : List String) (params : List ℝ) (rng : ℕ → ℝ) :
    ∀ (tp : List ℝ) (i k : ℕ), i ≤ labels.length → labels.length < i + tp.length →
      ∃ e, mcTupleAux labels params rng tp i k = Except.error e
  | [], _, _, hle, hlt => by simp at hlt; omega
  | base :: rest, i, k, hle, hlt => by
    by_cases hi : i = labels.length
    · have hnone : labels[i]? = none := List.getElem?_eq_none (by omega)
      exact ⟨"IndexError", by simp [mcTupleAux, mcComponent, hnone]⟩
    · rcases hc : mcComponent labels params rng base i k with e | ⟨vs, k1⟩
      · exact ⟨e, by simp [mcTupleAux, hc]⟩
      · obtain ⟨e, he⟩ := mcTupleAux_error labels params rng rest (i + 1) k1
          (by omega) (by simp at hlt ⊢; omega)
        exact ⟨e, by simp [mcTupleAux, hc, he]⟩

/-- A failing tuple build makes the whole Monte-Carlo loop fail as soon as it runs
at least once. -/
theorem mcLoop_error (labels : List String) (params : List ℝ) (rng : ℕ → ℝ)
    (tp : List ℝ)
    (h : ∀ k, ∃ e, mcTupleAux labels params rng tp 0 k = Except.error e) :
    ∀ (n : ℕ), 1 ≤ n → ∀ k, ∃ e, mcLoop labels params rng tp n k = Except.error e
  | 0, h0, _ => by omega
  | Nat.succ m, _, k => by
    obtain ⟨e, he⟩ := h k
    exact ⟨e, by simp [mcLoop, he]⟩

/-- C8 (amended): `monte_carlo_track` performs no length validation at all.  With
mismatched vectors it succeeds whenever every consulted index exists — e.g. an
all-`null` label vector covering the base parameters succeeds for any parameter
vector length, returning `nmax` copies of the base parameters — and when the label
vector is shorter than the base parameter list it fails with an IndexError raised in
the middle of building a tuple (after `mc_track_pram` was reset), not with a
validation error raised before any computation. -/
theorem C8_no_validation (nmax : ℕ) (tp : List ℝ) (labels : List String)
    (params : List ℝ) (rng : ℕ → ℝ) (hn : 1 ≤ nmax) :
    ((∀ l ∈ labels, l = "null") → tp.length ≤ labels.length →
      monte_carlo_track nmax tp labels params rng =
        Except.ok (List.replicate nmax tp)) ∧
    (labels.length < tp.length →
      ∃ e, monte_carlo_track nmax tp labels params rng = Except.error e) := by
  constructor
  · intro hall hlen
    have htup : ∀ k, mcTupleAux labels params rng tp 0 k = Except.ok (tp, k) :=
      fun k => mcTupleAux_allnull labels params rng hall tp 0 k (by omega)
    have hloop := mcLoop_allnull labels params rng tp htup nmax 0
    simp [monte_carlo_track, hloop]
  · intro hlt
    have htup : ∀ k, ∃ e, mcTupleAux labels params rng tp 0 k = Except.error e :=
      fun k => mcTupleAux_error labels params rng tp 0 k (by omega) (by omega)
    obtain ⟨e, he⟩ := mcLoop_error labels params rng tp htup nmax hn 0
    exact ⟨e, by simp [monte_carlo_track, he]⟩

/-- Counterexample to C8 as stated: the five-element label vector and the
one-element parameter vector are mismatched (against each other and against the 5
base track parameters), yet `monte_carlo_track` raises no validation error and
happily returns a result. -/
theorem C8_counterexample :
    ([("null" : String), "null", "null", "null", "null"].length ≠
        ([(0 : ℝ)] : List ℝ).length) ∧
    monte_carlo_track 1 [(12.5 : ℝ), 0, -2, 0, 0]
        ["null", "null", "null", "null", "null"] [(0 : ℝ)] (fun _ => 0) =
      Except.ok [[(12.5 : ℝ), 0, -2, 0, 0]] := by
  exact ⟨by decide, rfl⟩

/-- Witness for C8: a one-label vector against two base parameters errors out. -/
theorem C8_witness :
    (1 ≤ 1 ∧ [("null" : String)].length < [(0 : ℝ), 0].length) ∧
    ∃ e, monte_carlo_track 1 [(0 : ℝ), 0] ["null"] [] (fun _ => 0) =
      Except.error e := by
  refine ⟨⟨by decide, by decide⟩, ?_⟩
  exact (C8_no_validation 1 [(0 : ℝ), 0] ["null"] [] (fun _ => 0) (by decide)).2
    (by decide)

/-- One loop iteration succeeds whenever the label and parameter entries at its
index exist, appending one value when the label is recognized and nothing
otherwise. -/
theorem mcComponent_ok (labels : List String) (params : List ℝ) (rng : ℕ → ℝ)
    (base : ℝ) (i k : ℕ) (hi : i < labels.length) (hp : i < params.length) :
    ∃ vs k2, mcComponent labels params rng base i k = Except.ok (vs, k2) ∧
      vs.length = if recognizedAt labels i then 1 else 0 := by
  have hl : labels[i]? = some labels[i] := List.getElem?_eq_getElem hi
  have hpp : params[i]? = some params[i] := List.getElem?_eq_getElem hp
  by_cases h1 : labels[i] = "null"
  · refine ⟨[get_value_null_distribution base], k, ?_, ?_⟩
    · simp [mcComponent, hl, h1]
    · simp [recognizedAt, List.get?_eq_getElem?, hl, h1]
  · by_cases h2 : labels[i] = "gaus"
    · refine ⟨[get_value_gaus_distribution base params[i] (rng k)],
        k + 1, ?_, ?_⟩
      · simp [mcComponent, hl, h1, h2, hpp]
      · simp [recognizedAt, List.get?_eq_getElem?, hl, h2]
    · by_cases h3 : labels[i] = "uniform"
      · refine ⟨[get_value_uniform_distribution base params[i] (rng k)],
          k + 1, ?_, ?_⟩
        · simp [mcComponent, hl, h1, h2, h3, hpp]
        · simp [recognizedAt, List.get?_eq_getElem?, hl, h3]
      · refine ⟨[], k, ?_, ?_⟩
        · simp [mcComponent, hl, h1, h2, h3]
        · simp [recognizedAt, List.get?_eq_getElem?, hl, h1, h2, h3]

/-- When every consulted index exists, one tuple build succeeds and the tuple's
length is the number of recognized labels among the consulted indices. -/
theorem mcTupleAux_ok (labels : List String) (params : List ℝ) (rng : ℕ → ℝ) :
    ∀ (tp : List ℝ) (i k : ℕ), i + tp.length ≤ labels.length →
      i + tp.length ≤ params.length →
      ∃ t k2, mcTupleAux labels params rng tp i k = Except.ok (t, k2) ∧
        t.length = (List.range' i tp.length).countP (recognizedAt labels)
  | [], i, k, _, _ => ⟨[], k, rfl, by simp⟩
  | base :: rest, i, k, hla, hpa => by
    have hi : i < labels.length := by simp at hla; omega
    have hp : i < params.length := by simp at hpa; omega
    obtain ⟨vs, k1, hc, hvs⟩ := mcComponent_ok labels params rng base i k hi hp
    obtain ⟨t, k2, ht, htl⟩ := mcTupleAux_ok labels params rng rest (i + 1) k1
      (by simp at hla ⊢; omega) (by simp at hpa ⊢; omega)
    refine ⟨vs ++ t, k2, ?_, ?_⟩
    · simp [mcTupleAux, hc, ht]
    · simp only [List.length_append, List.length_cons, List.range'_succ,
        List.countP_cons, hvs, htl]
      by_cases hrec : recognizedAt labels i = true <;> simp [hrec] <;> omega

/-- Iterating a tuple build of fixed output length gives `n` tuples of that
length. -/
theorem mcLoop_ok (labels : List String) (params : List ℝ) (rng : ℕ → ℝ)
    (tp : List ℝ) (C : ℕ)
    (h : ∀ k, ∃ t k2, mcTupleAux labels params rng tp 0 k = Except.ok (t, k2) ∧
      t.length = C) :
    ∀ (n k : ℕ), ∃ ts k2, mcLoop labels params rng tp n k = Except.ok (ts, k2) ∧
      ts.length = n ∧ ∀ t ∈ ts, t.length = C
  | 0, k => ⟨[], k, rfl, by simp, by simp⟩
  | Nat.succ m, k => by
    obtain ⟨t, k1, ht, htl⟩ := h k
    obtain ⟨ts, k2, hts, hlen, hall⟩ := mcLoop_ok labels params rng tp C h m k1
    refine ⟨t :: ts, k2, ?_, by simp [hlen], ?_⟩
    · simp [mcLoop, ht, hts]
    · intro t' ht'
      rcases List.mem_cons.mp ht' with h' | h'
      · rw [h']; exact htl
      · exact hall t' h'

/-- C9: if some consulted label is not among `null`, `gaus`, `uniform`, the
component is silently skipped: `monte_carlo_track` raises no error and every
produced tuple has the number of recognized labels as its length, strictly fewer
elements than there are base parameters (so later components sit at shifted-down
indices). -/
theorem C9_unknown_label (tp : List ℝ) (labels : List String) (params : List ℝ)
    (rng : ℕ → ℝ) (nmax : ℕ) (i : ℕ) (lab : String) (hi : i < tp.length)
    (hla : tp.length ≤ labels.length) (hpa : tp.length ≤ params.length)
    (hget : labels.get? i = some lab)
    (h1 : lab ≠ "null") (h2 : lab ≠ "gaus") (h3 : lab ≠ "uniform") :
    ∃ ts, monte_carlo_track nmax tp labels params rng = Except.ok ts ∧
      ts.length = nmax ∧
      ∀ t ∈ ts, t.length = (List.range tp.length).countP (recognizedAt labels) ∧
        t.length < tp.length := by
  have htup : ∀ k, ∃ t k2, mcTupleAux labels params rng tp 0 k = Except.ok (t, k2) ∧
      t.length = (List.range tp.length).countP (recognizedAt labels) := by
    intro k
    obtain ⟨t, k2, ht, htl⟩ := mcTupleAux_ok labels params rng tp 0 k
      (by omega) (by omega)
    refine ⟨t, k2, ht, ?_⟩
    rw [List.range_eq_range']
    simpa using htl
  obtain ⟨ts, k2, hts, hlen, hall⟩ :=
    mcLoop_ok labels params rng tp _ htup nmax 0
  have hcount : (List.range tp.length).countP (recognizedAt labels) < tp.length := by
    have hle : (List.range tp.length).countP (recognizedAt labels) ≤
        (List.range tp.length).length := List.countP_le_length (recognizedAt labels)
    have hne : (List.range tp.length).countP (recognizedAt labels) ≠
        (List.range tp.length).length := by
      intro heq
      have hall2 := List.countP_eq_length.mp heq
      have hmem : i ∈ List.range tp.length := List.mem_range.mpr hi
      have hrec := hall2 i hmem
      have hget2 : labels[i]? = some lab := by
        rw [← List.get?_eq_getElem?]
        exact hget
      simp [recognizedAt, List.get?_eq_getElem?, hget2, h1, h2, h3] at hrec
    have hlt := lt_of_le_of_ne hle hne
    simpa using hlt
  refine ⟨ts, by simp [monte_carlo_track, hts], hlen, ?_⟩
  intro t ht
  exact ⟨hall t ht, by rw [hall t ht]; exact hcount⟩

/-- Witness for C9: label vector `["null", "foo", "null"]` with the unknown label
`"foo"` at index 1 silently yields two-element tuples from three base parameters. -/
theorem C9_witness :
    ∃ ts, monte_carlo_track 2 [(1 : ℝ), 2, 3] ["null", "foo", "null"]
        [(0 : ℝ), 0, 0] (fun _ => 0) = Except.ok ts ∧ ts.length = 2 ∧
      ∀ t ∈ ts,
        t.length = (List.range 3).countP (recognizedAt ["null", "foo", "null"]) ∧
        t.length < 3 := by
  have h := C9_unknown_label [(1 : ℝ), 2, 3] ["null", "foo", "null"]
    [(0 : ℝ), 0, 0] (fun _ => 0) 2 1 "foo" (by decide) (by decide) (by decide)
    rfl (by decide) (by decide) (by decide)
  simpa using h

/-- The diffusion loop produces a flat list of `len(points) * gain` entries. -/
theorem diffuseAux_length (i1 i2 : ℕ) (sigma : ℝ) (gain : ℕ) (rng : ℕ → ℝ × ℝ) :
    ∀ (pts : List V3) (i : ℕ),
      (diffuseAux i1 i2 sigma gain rng pts i).length = pts.length * gain
  | [], _ => by simp [diffuseAux]
  | pt :: rest, i => by
    have ih := diffuseAux_length i1 i2 sigma gain rng rest (i + 1)
    simp only [diffuseAux, List.length_append, diffuseBlock, List.length_map,
      List.length_range, ih, List.length_cons]
    ring

/-- Layout of the flat diffusion list: the `j`-th draw around the `k`-th ionization
point sits at index `k * gain + j` and equals the point's two selected coordinates
shifted by `sqrt sigma` times the stream draw, with `point[1]` copied through. -/
theorem diffuseAux_get (i1 i2 : ℕ) (sigma : ℝ) (gain : ℕ) (rng : ℕ → ℝ × ℝ) :
    ∀ (pts : List V3) (i0 k j : ℕ), k < pts.length → j < gain →
      (diffuseAux i1 i2 sigma gain rng pts i0)[k * gain + j]? = some
        (coord (pts.getD k (0, 0, 0)) i1 +
            Real.sqrt sigma * (rng ((i0 + k) * gain + j)).1,
         (pts.getD k (0, 0, 0)).2.1,
         coord (pts.getD k (0, 0, 0)) i2 +
            Real.sqrt sigma * (rng ((i0 + k) * gain + j)).2)
  | [], _, k, _, hk, _ => by simp at hk
  | pt :: rest, i0, 0, j, hk, hj => by
    have hblock : (diffuseBlock i1 i2 sigma gain rng pt (i0 * gain)).length = gain := by
      simp [diffuseBlock]
    simp only [diffuseAux, Nat.zero_mul, Nat.zero_add]
    rw [List.getElem?_append_left (by rw [hblock]; exact hj)]
    simp [diffuseBlock, mvnDiag, List.getElem?_range, hj]
  | pt :: rest, i0, Nat.succ k, j, hk, hj => by
    have ih := diffuseAux_get i1 i2 sigma gain rng rest (i0 + 1) k j
      (by simpa using Nat.lt_of_succ_lt_succ hk) hj
    have harg : i0 + 1 + k = i0 + (k + 1) := by omega
    rw [harg] at ih
    have hblock : (diffuseBlock i1 i2 sigma gain rng pt (i0 * gain)).length = gain := by
      simp [diffuseBlock]
    have hidx : Nat.succ k * gain + j = gain + (k * gain + j) := by
      rw [Nat.succ_mul]
      ring
    simp only [diffuseAux]
    rw [hidx, List.getElem?_append_right (by rw [hblock]; exact Nat.le_add_right gain _)]
    rw [hblock, show gain + (k * gain + j) - gain = k * gain + j from by omega, ih]
    simp

/-- C3 (amended): for the plane `'xz'` actually used by every caller,
`calclate_difused_point` draws, for each ionization point, `gain` samples from the
2-D Gaussian centered on the point's XZ projection with covariance matrix
`sigma * I` — the source passes `[[sigma, 0], [0, sigma]]` as the covariance, so
each axis is shifted by `sqrt sigma` times an independent standard draw, not by
`sigma` times one — carries the y coordinate through unchanged, and returns one
flat list of `len(points) * gain` diffused points in which the `j`-th draw around
point `k` sits at index `k * gain + j`. -/
theorem C3_diffusion (gain : ℕ) (sigma : ℝ) (pts : List V3) (rng : ℕ → ℝ × ℝ)
    (k j : ℕ) (hk : k < pts.length) (hj : j < gain) :
    ∃ l, calclate_difused_point ['x', 'z'] gain sigma pts rng = some l ∧
      l.length = pts.length * gain ∧
      l[k * gain + j]? = some
        ((pts.getD k (0, 0, 0)).1 + Real.sqrt sigma * (rng (k * gain + j)).1,
         (pts.getD k (0, 0, 0)).2.1,
         (pts.getD k (0, 0, 0)).2.2 + Real.sqrt sigma * (rng (k * gain + j)).2) := by
  refine ⟨diffuseAux (charIndex 'x') (charIndex 'z') sigma gain rng pts 0, rfl,
    diffuseAux_length (charIndex 'x') (charIndex 'z') sigma gain rng pts 0, ?_⟩
  have hx : charIndex 'x' = 0 := rfl
  have hz : charIndex 'z' = 2 := rfl
  have h := diffuseAux_get (charIndex 'x') (charIndex 'z') sigma gain rng pts 0 k j hk hj
  rw [hx, hz] at h
  simpa [coord] using h

/-- Counterexample to C3 as stated.  First conjunct pair: with `sigma = 4` and the
standard draw `(1, 0)`, the code yields x offset `sqrt 4 = 2` (covariance
`sigma * I`), not the offset `4` that covariance `sigma^2 * I` would give.  Second
conjunct pair: for plane `'xy'` the non-projected z coordinate is not carried
through unchanged — with `sigma = 0` the point `(0, 0, 5)` comes out as `(0, 0, 0)`
because the source assembles every diffused point as `[sample[0], pt[1], sample[1]]`
regardless of the chosen plane. -/
theorem C3_counterexample :
    (calclate_difused_point ['x', 'z'] 1 4 [((0 : ℝ), 0, 0)] (fun _ => (1, 0)) =
        some [((2 : ℝ), 0, 0)] ∧
      calclate_difused_point ['x', 'z'] 1 4 [((0 : ℝ), 0, 0)] (fun _ => (1, 0)) ≠
        some [((4 : ℝ), 0, 0)]) ∧
    (calclate_difused_point ['x', 'y'] 1 0 [((0 : ℝ), 0, 5)] (fun _ => (0, 0)) =
        some [((0 : ℝ), 0, 0)] ∧
      calclate_difused_point ['x', 'y'] 1 0 [((0 : ℝ), 0, 5)] (fun _ => (0, 0)) ≠
        some [((0 : ℝ), 0, 5)]) := by
  have h4 : Real.sqrt 4 = 2 := by
    rw [show (4 : ℝ) = 2 ^ 2 by norm_num]
    exact Real.sqrt_sq (by norm_num)
  have hx : charIndex 'x' = 0 := rfl
  have hy : charIndex 'y' = 1 := rfl
  have hz : charIndex 'z' = 2 := rfl
  have he1 : calclate_difused_point ['x', 'z'] 1 4 [((0 : ℝ), 0, 0)]
      (fun _ => (1, 0)) = some [((2 : ℝ), 0, 0)] := by
    show some (diffuseAux (charIndex 'x') (charIndex 'z') 4 1 (fun _ => (1, 0))
      [((0 : ℝ), 0, 0)] 0) = some [((2 : ℝ), 0, 0)]
    rw [hx, hz]
    norm_num [diffuseAux, diffuseBlock, mvnDiag, coord, h4, List.range_succ]
  have he2 : calclate_difused_point ['x', 'y'] 1 0 [((0 : ℝ), 0, 5)]
      (fun _ => (0, 0)) = some [((0 : ℝ), 0, 0)] := by
    show some (diffuseAux (charIndex 'x') (charIndex 'y') 0 1 (fun _ => (0, 0))
      [((0 : ℝ), 0, 5)] 0) = some [((0 : ℝ), 0, 0)]
    rw [hx, hy]
    norm_num [diffuseAux, diffuseBlock, mvnDiag, coord, List.range_succ]
  refine ⟨⟨he1, ?_⟩, he2, ?_⟩
  · rw [he1]
    norm_num [Prod.ext_iff]
  · rw [he2]
    norm_num [Prod.ext_iff]

/-- Witness for C3: one point, one draw, `sigma = 0` collapses the diffusion onto
the ionization point with y carried through. -/
theorem C3_witness :
    ∃ l, calclate_difused_point ['x', 'z'] 1 0 [((1 : ℝ), 2, 3)] (fun _ => (0, 0)) =
        some l ∧ l.length = 1 ∧ l[0]? = some ((1 : ℝ), 2, 3) := by
  obtain ⟨l, h1, h2, h3⟩ := C3_diffusion 1 0 [((1 : ℝ), 2, 3)] (fun _ => (0, 0))
    0 0 (by simp) (by decide)
  exact ⟨l, h1, by simpa using h2, by simpa using h3⟩

/-- The source's 2x2 rotation collapses to a phase shift of the vertex angle. -/
theorem regularVertex_eq (n : ℕ) (r thetar : ℝ) (k : ℕ) :
    regularVertex n r thetar k =
      (r * Real.cos (2 * Real.pi * k / n + thetar), 0,
       r * Real.sin (2 * Real.pi * k / n + thetar)) := by
  simp only [regularVertex]
  have h1 : Real.cos thetar * (r * Real.cos (2 * Real.pi * k / n)) -
      Real.sin thetar * (r * Real.sin (2 * Real.pi * k / n)) =
      r * Real.cos (2 * Real.pi * k / n + thetar) := by
    rw [Real.cos_add]
    ring
  have h2 : Real.sin thetar * (r * Real.cos (2 * Real.pi * k / n)) +
      Real.cos thetar * (r * Real.sin (2 * Real.pi * k / n)) =
      r * Real.sin (2 * Real.pi * k / n + thetar) := by
    rw [Real.sin_add]
    ring
  rw [h1, h2]

/-- Distance from the origin to a point of the circle of radius `r` in the XZ
plane. -/
theorem dist3_origin_circle (r phi : ℝ) (hr : 0 ≤ r) :
    dist3 (0, 0, 0) (r * Real.cos phi, 0, r * Real.sin phi) = r := by
  show Real.sqrt (((0 : ℝ) - r * Real.cos phi) ^ 2 + ((0 : ℝ) - 0) ^ 2 +
      ((0 : ℝ) - r * Real.sin phi) ^ 2) = r
  have hkey : ((0 : ℝ) - r * Real.cos phi) ^ 2 + ((0 : ℝ) - 0) ^ 2 +
      ((0 : ℝ) - r * Real.sin phi) ^ 2 = r ^ 2 := by
    have h1 := Real.sin_sq_add_cos_sq phi
    linear_combination r ^ 2 * h1
  rw [hkey, Real.sqrt_sq hr]

/-- Chord of the circle of radius `r` in the XZ plane. -/
theorem dist3_circle_chord (r phi psi : ℝ) :
    dist3 (r * Real.cos phi, 0, r * Real.sin phi)
        (r * Real.cos psi, 0, r * Real.sin psi) =
      Real.sqrt (r ^ 2 * (2 - 2 * Real.cos (phi - psi))) := by
  show Real.sqrt ((r * Real.cos phi - r * Real.cos psi) ^ 2 + ((0 : ℝ) - 0) ^ 2 +
      (r * Real.sin phi - r * Real.sin psi) ^ 2) = _
  congr 1
  rw [Real.cos_sub]
  have h1 := Real.sin_sq_add_cos_sq phi
  have h2 := Real.sin_sq_add_cos_sq psi
  linear_combination r ^ 2 * h1 + r ^ 2 * h2

/-- Half-angle form of the chord factor. -/
theorem sqrt_two_sub_two_cos (x : ℝ) :
    Real.sqrt (2 - 2 * Real.cos (2 * x)) = 2 * |Real.sin x| := by
  have h : 2 - 2 * Real.cos (2 * x) = (2 * Real.sin x) ^ 2 := by
    have h1 := Real.cos_two_mul x
    have h2 := Real.sin_sq_add_cos_sq x
    linear_combination (-2) * h1 - 4 * h2
  rw [h, Real.sqrt_sq_eq_abs, abs_mul]
  norm_num

/-- Distance between two vertices of the placed regular polygon. -/
theorem regularVertex_dist (n : ℕ) (r thetar : ℝ) (hr : 0 ≤ r) (k m : ℕ) :
    dist3 (regularVertex n r thetar k) (regularVertex n r thetar m) =
      r * Real.sqrt (2 - 2 * Real.cos (2 * Real.pi * k / n - 2 * Real.pi * m / n)) := by
  rw [regularVertex_eq, regularVertex_eq, dist3_circle_chord]
  rw [show 2 * Real.pi * (k : ℕ) / n + thetar - (2 * Real.pi * (m : ℕ) / n + thetar) =
    2 * Real.pi * (k : ℕ) / n - 2 * Real.pi * (m : ℕ) / n from by ring]
  rw [Real.sqrt_mul (sq_nonneg r), Real.sqrt_sq hr]

/-- Element access in the generated vertex list. -/
theorem getD_range_map (n k : ℕ) (f : ℕ → V3) (d : V3) (hk : k < n) :
    ((List.range n).map f).getD k d = f k := by
  rw [List.getD_eq_getElem?_getD, List.getElem?_map, List.getElem?_range hk]
  rfl

/-- C6: for every `n ≥ 3` (and a nonnegative edge length, as lengths are),
`generate_regular_n_polygon n L theta` produces exactly `n` vertices, each at
Euclidean distance `L / (2 sin(pi/n))` from the local origin, and every pair of
cyclically adjacent vertices lies at distance exactly `L` (exact real
arithmetic). -/
theorem C6_regular_polygon (n : ℕ) (length theta : ℝ) (hn : 3 ≤ n)
    (hL : 0 ≤ length) :
    ∃ shape, generate_regular_n_polygon n length theta = some shape ∧
      shape.polygon.length = n ∧
      (∀ v ∈ shape.polygon,
        dist3 (0, 0, 0) v = length / (2 * Real.sin (Real.pi / n))) ∧
      (∀ k, k < n → dist3 (shape.polygon.getD k (0, 0, 0))
          (shape.polygon.getD ((k + 1) % n) (0, 0, 0)) = length) := by
  have hnR : (3 : ℝ) ≤ (n : ℝ) := by exact_mod_cast hn
  have hn0 : (0 : ℝ) < (n : ℝ) := by linarith
  have hnne : (n : ℝ) ≠ 0 := ne_of_gt hn0
  have hsin : 0 < Real.sin (Real.pi / n) :=
    Real.sin_pos_of_pos_of_lt_pi (div_pos Real.pi_pos hn0)
      (div_lt_self Real.pi_pos (by linarith))
  have hsinne : 2 * Real.sin (Real.pi / n) ≠ 0 := by positivity
  have hr : 0 ≤ length / (2 * Real.sin (Real.pi / n)) :=
    div_nonneg hL (by linarith)
  have hnlt : ¬ n < 3 := by omega
  simp only [generate_regular_n_polygon, if_neg hnlt]
  refine ⟨_, rfl, by simp, ?_, ?_⟩
  · intro v hv
    simp only [List.mem_map] at hv
    obtain ⟨k, hkr, rfl⟩ := hv
    rw [regularVertex_eq]
    exact dist3_origin_circle _ _ hr
  · intro k hk
    have hgd : ∀ m, m < n →
        ((List.range n).map (regularVertex n
            (length / (2 * Real.sin (Real.pi / n))) (Real.pi / 180 * theta))).getD
          m (0, 0, 0) =
        regularVertex n (length / (2 * Real.sin (Real.pi / n)))
          (Real.pi / 180 * theta) m :=
      fun m hm => getD_range_map n m _ _ hm
    rcases Nat.lt_or_ge (k + 1) n with hk1 | hk1
    · rw [hgd k hk, Nat.mod_eq_of_lt hk1, hgd (k + 1) hk1,
        regularVertex_dist n _ _ hr]
      have hangle : 2 * Real.pi * (k : ℕ) / n - 2 * Real.pi * ((k + 1 : ℕ) : ℝ) / n =
          -(2 * (Real.pi / n)) := by
        push_cast
        field_simp
        ring
      rw [hangle, Real.cos_neg, sqrt_two_sub_two_cos, abs_of_pos hsin]
      exact div_mul_cancel₀ length hsinne
    · have hkn : k + 1 = n := by omega
      have hmod : (k + 1) % n = 0 := by rw [hkn, Nat.mod_self]
      rw [hgd k hk, hmod, hgd 0 (by omega), regularVertex_dist n _ _ hr]
      have hkr : (k : ℝ) = (n : ℝ) - 1 := by
        have hc := congrArg (Nat.cast : ℕ → ℝ) hkn
        push_cast at hc
        linarith
      have hangle : 2 * Real.pi * (k : ℕ) / n - 2 * Real.pi * ((0 : ℕ) : ℝ) / n =
          2 * Real.pi - 2 * (Real.pi / n) := by
        rw [hkr]
        push_cast
        field_simp
        ring
      have hcos : Real.cos (2 * Real.pi - 2 * (Real.pi / n)) =
          Real.cos (2 * (Real.pi / n)) := by
        rw [Real.cos_sub, Real.cos_two_pi, Real.sin_two_pi]
        ring
      rw [hangle, hcos, sqrt_two_sub_two_cos, abs_of_pos hsin]
      exact div_mul_cancel₀ length hsinne

/-- Witness for C6 at `n = 4`, edge length `2`, rotation `0`. -/
theorem C6_witness :
    (3 ≤ 4 ∧ (0 : ℝ) ≤ 2) ∧
    ∃ shape, generate_regular_n_polygon 4 2 0 = some shape ∧
      shape.polygon.length = 4 ∧
      (∀ v ∈ shape.polygon,
        dist3 (0, 0, 0) v = 2 / (2 * Real.sin (Real.pi / 4))) ∧
      (∀ k, k < 4 → dist3 (shape.polygon.getD k (0, 0, 0))
          (shape.polygon.getD ((k + 1) % 4) (0, 0, 0)) = 2) := by
  refine ⟨⟨by decide, by norm_num⟩, ?_⟩
  have h := C6_regular_polygon 4 2 0 (by decide) (by norm_num)
  simpa using h

end CatmSpec
